import Mathlib

/-!
Shallow embedding of the senseye channel engine (`src/senses/rwstat.c`)
and proofs about its specified behaviour: the pattern-driven alpha pass,
histogram maintenance, Hilbert-curve mapping table, block/slide ingest,
packing footprints, entropy estimation and the inbound command dispatcher.
-/

namespace RWStat

/-- Bytes are modelled as `Nat`; the source only stores `uint8_t` values read
from the input stream into these positions, so no wrap-around arithmetic is
exercised by the embedded code paths. -/
abbrev Byte := Nat

/-! ## Pattern matcher (`struct pattern`, `update_ptnalpha`, rwstat.c 20-28, 226-275) -/

/-- `struct pattern` (rwstat.c lines 20-28) together with its per-pass mutable
state: `buf` the byte sequence, `buf_pos` the current match progress, `evc`
the per-frame event counter, `alpha` the opacity painted on a match, `id` the
identifier reported in match events. `flagState` is `FLAG_STATE`
(persist-as-default-opacity) and `flagEvent` is `FLAG_EVENT`
(emit-match-event) of `enum ptn_flags`. -/
structure Ptn where
  buf : List Byte
  buf_pos : Nat
  evc : Nat
  alpha : Byte
  id : Nat
  flagState : Bool
  flagEvent : Bool
deriving Repr, DecidableEq

/-- `memset(&alpha[start], v, len)` on the alpha buffer. The buffer is
modelled as a total function on mathematical integers because the source
computes the start as `i - ptn->buf_sz` (rwstat.c line 250), which can fall
below index zero; keeping the integer index exposes that write. -/
def memsetAlpha (a : Int → Byte) (start : Int) (len : Nat) (v : Byte) : Int → Byte :=
  fun k => if start ≤ k ∧ k < start + (len : Int) then v else a k

/-- Body of the inner per-pattern loop of `update_ptnalpha` (rwstat.c lines
245-256) for one pattern at window position `i` holding byte `b`. Returns the
updated pattern, alpha buffer, running default opacity `av`, and a log of the
`memset` paint operations performed (start index, length). -/
def ptnStep (i : Nat) (b : Byte) (ptn : Ptn) (alpha : Int → Byte) (av : Byte)
    (paints : List (Int × Nat)) : Ptn × (Int → Byte) × Byte × List (Int × Nat) :=
  if ptn.buf.getD ptn.buf_pos 0 = b then
    if ptn.buf_pos + 1 = ptn.buf.length then
      ({ ptn with buf_pos := 0,
                  evc := if ptn.flagEvent then ptn.evc + 1 else ptn.evc },
       memsetAlpha alpha ((i : Int) - (ptn.buf.length : Int)) ptn.buf.length ptn.alpha,
       if ptn.flagState then ptn.alpha else av,
       (((i : Int) - (ptn.buf.length : Int), ptn.buf.length)) :: paints)
    else
      ({ ptn with buf_pos := ptn.buf_pos + 1 }, alpha, av, paints)
  else
    (ptn, alpha, av, paints)

/-- The inner loop over all registered patterns at one window position
(rwstat.c lines 245-256), threading the alpha buffer, the running default
opacity and the paint log through the patterns in registration order. -/
def ptnLoop (i : Nat) (b : Byte) :
    List Ptn → (Int → Byte) → Byte → List (Int × Nat) →
    List Ptn × (Int → Byte) × Byte × List (Int × Nat)
  | [], alpha, av, paints => ([], alpha, av, paints)
  | p :: ps, alpha, av, paints =>
    let r := ptnStep i b p alpha av paints
    let rest := ptnLoop i b ps r.2.1 r.2.2.1 r.2.2.2
    (r.1 :: rest.1, rest.2)

/-- The outer loop of `update_ptnalpha` over window positions (rwstat.c lines
242-258): at each position the alpha entry is first assigned the running
default opacity `av`, then every pattern is advanced. -/
def passLoop : Nat → List Byte → List Ptn → (Int → Byte) → Byte → List (Int × Nat) →
    List Ptn × (Int → Byte) × Byte × List (Int × Nat)
  | _, [], ps, alpha, av, paints => (ps, alpha, av, paints)
  | i, b :: rest, ps, alpha, av, paints =>
    let alpha1 : Int → Byte := fun k => if k = (i : Int) then av else alpha k
    let r := ptnLoop i b ps alpha1 av paints
    passLoop (i + 1) rest r.1 r.2.1 r.2.2.1 r.2.2.2

/-- Result of one pattern-alpha pass: final pattern states, alpha buffer,
paint log, and the `(id, evc)` match-count events enqueued afterwards. -/
structure PtnPassResult where
  ptns : List Ptn
  alpha : Int → Byte
  paints : List (Int × Nat)
  events : List (Nat × Nat)

/-- `update_ptnalpha` (rwstat.c lines 226-275). `base2` is `base * base`, the
alpha buffer size used by the `n_patterns == 0` branch. With patterns
registered: reset every pattern's progress and event counter, run the single
pass over the window with default opacity `0xff`, then for every pattern with
a nonzero event counter enqueue one `(id, evc)` event and clear the counter. -/
def update_ptnalpha (window : List Byte) (base2 : Nat) (ptns : List Ptn)
    (alpha : Int → Byte) : PtnPassResult :=
  if ptns.length = 0 then
    { ptns := ptns, alpha := memsetAlpha alpha 0 base2 0xff,
      paints := [], events := [] }
  else
    let ptns0 := ptns.map fun p => { p with buf_pos := 0, evc := 0 }
    let r := passLoop 0 window ptns0 alpha 0xff []
    let events := (r.1.filter fun p => p.evc ≠ 0).map fun p => (p.id, p.evc)
    let ptns1 := r.1.map fun p => if p.evc ≠ 0 then { p with evc := 0 } else p
    { ptns := ptns1, alpha := r.2.1, paints := r.2.2.2, events := events }

/-- The progress/completion machine of a single pattern through the inner
loop (rwstat.c lines 247-255): state is `(buf_pos, completions)`; a byte
advances the progress exactly when it equals the pattern byte at the current
progress position, and the progress returns to zero exactly on completing a
full match, which also bumps the completion count. -/
def matchStep (pbuf : List Byte) (s : Nat × Nat) (b : Byte) : Nat × Nat :=
  if pbuf.getD s.1 0 = b then
    if s.1 + 1 = pbuf.length then (0, s.2 + 1) else (s.1 + 1, s.2)
  else s

/-- Running the single-pattern machine over a whole window. -/
def matchRun (pbuf : List Byte) (w : List Byte) (s : Nat × Nat) : Nat × Nat :=
  w.foldl (matchStep pbuf) s

/-! ## Histogram and entropy (`rebuild_hgram`, `shent_h`, `shent`, `hnorm`,
rwstat.c 113-158) -/

/-- `rebuild_hgram` (rwstat.c lines 113-117): adds the current window's byte
counts on top of the existing 256-bucket table. Note that the source does
NOT clear the table before adding. -/
def rebuild_hgram (buf : List Byte) (h : Byte → Nat) : Byte → Nat :=
  fun v => h v + buf.count v

/-- Sum of all 256 histogram buckets. -/
def hgramSum (h : Byte → Nat) : Nat :=
  ((List.range 256).map h).sum

/-- `hnorm` (rwstat.c lines 148-158): rescale every bucket to
`(uint8_t)(255 * bucket / total)`; the float multiply-and-truncate is
modelled with `Nat` floor division. Leaves the table alone when the total
is zero. -/
def hnorm (h : Byte → Nat) : Byte → Nat :=
  let acc := hgramSum h
  if 0 < acc then fun v => 255 * h v / acc else h

/-- `shent_h` (rwstat.c lines 122-131): Shannon-style entropy accumulated
over buffer positions, `ent -= pr * log2f(pr)` with
`pr = hgram[buf[i]] / bufsz`; `float` is modelled by `ℝ` and `log2f` by
`Real.logb 2`. The source always passes `bufsz` equal to the buffer length. -/
noncomputable def shent_h (buf : List Byte) (hgram : Byte → Nat) : ℝ :=
  -(buf.map (fun b =>
      ((hgram b : ℝ) / (buf.length : ℝ)) *
        Real.logb 2 ((hgram b : ℝ) / (buf.length : ℝ)))).sum

/-- `shent` (rwstat.c lines 136-143): build a fresh histogram from the
buffer itself (bucket `v` holds the count of `v` in the buffer) and apply
`shent_h`. -/
noncomputable def shent (buf : List Byte) : ℝ :=
  shent_h buf (fun v => buf.count v)

/-! ## Clock, packing and mapping modes -/

/-- Modelled from the spec: `enum rwstat_clock` of the missing `rwstat.h`
header; the spec's block/slide clock modes. `ch_step` (line 315) tests
`1 == (clock & RW_CLK_SLIDE)`, so `RW_CLK_BLOCK = 0` and `RW_CLK_SLIDE = 1`;
the test holds exactly for the slide constructor. -/
inductive Clock
  | block
  | slide
deriving Repr, DecidableEq

/-- `enum rwstat_pack`. The base footprints 4/3/1/1 are the `pack_sizes`
array of rwstat.c lines 31-36; the association of array slots to the
constructors (full-tight, tight-no-alpha, intensity, histogram-intensity in
this order) is modelled from the spec, since `rwstat.h` declaring the enum
order is not in the sources. -/
inductive Pack
  | tight
  | tnoalpha
  | intens
  | hintens
deriving Repr, DecidableEq

/-- `pack_sizes` (rwstat.c lines 31-36): bytes consumed per output pixel in
each packing mode. -/
def pack_sizes : Pack → Nat
  | .tight => 4
  | .tnoalpha => 3
  | .intens => 1
  | .hintens => 1

/-- `enum rwstat_mapping`: raster wrap, coordinate tuple, hilbert curve. -/
inductive Mapping
  | wrap
  | tuple
  | hilbert
deriving Repr, DecidableEq

/-- Modelled from the spec: `enum rwstat_alpha` of the missing `rwstat.h`;
constant (full), pattern-driven, and entropy-based alpha modes. `ch_alpha`
(line 489) tests `0 == amode`, identifying `RW_ALPHA_FULL = 0`. -/
inductive Amode
  | full
  | ptn
  | entbase
deriving Repr, DecidableEq

/-! ## Ingest (`ch_data`, rwstat.c 344-381) and the frame-step histogram
effects (`ch_step`, rwstat.c 282-337) -/

/-- Data-path state of a channel: clock mode, the raw window (a list of
fixed length `buf_sz`), the fill offset, the histogram and the packing mode
(which decides whether `ch_step` normalizes the histogram). -/
structure Chan where
  clock : Clock
  buf : List Byte
  buf_ofs : Nat
  hgram : Byte → Nat
  pack : Pack

/-- The byte-copy loop of `ch_data` (rwstat.c lines 367-370):
`chp->buf[chp->buf_ofs++] = buf[i]` for each consumed byte. Writes beyond
the window length leave the list unchanged, as `List.set` does. -/
def writeBytes : List Byte → Nat → List Byte → List Byte
  | buf, _, [] => buf
  | buf, ofs, b :: rest => writeBytes (buf.set ofs b) (ofs + 1) rest

/-- The histogram-relevant tail of `ch_step` (rwstat.c lines 315-319): in
slide mode the histogram is re-accumulated from the window (without being
cleared first), and in histogram-intensity packing it is normalized in
place. The pixel-packing and event emission of `ch_step` do not touch these
fields. -/
def ch_step_h (c : Chan) : Chan :=
  let c1 := if c.clock = .slide then { c with hgram := rebuild_hgram c.buf c.hgram } else c
  if c1.pack = .hintens then { c1 with hgram := hnorm c1.hgram } else c1

/-- `ch_data` (rwstat.c lines 344-381). Returns the channel after the call,
the consumed byte count `ntw`, and whether a frame step fired (`*step`).
The slide-branch `memmove(chp->buf, chp->buf + ntw, chp->buf_ofs)` is
modelled as `buf.drop ntw ++ buf.drop (W - ntw)`: positions `0..W-ntw` take
the old bytes from `ntw` upward and the tail keeps its old contents until
the write loop overwrites it. -/
def ch_data (c : Chan) (chunk : List Byte) : Chan × Nat × Bool :=
  let W := c.buf.length
  let pre : Chan × Nat :=
    if c.clock = .slide then
      if chunk.length < W then
        ({ c with buf_ofs := W - chunk.length,
                  buf := c.buf.drop chunk.length ++ c.buf.drop (W - chunk.length) },
         chunk.length)
      else (c, W)
    else (c, min chunk.length (W - c.buf_ofs))
  let c0 := pre.1
  let ntw := pre.2
  let taken := chunk.take ntw
  let c1 : Chan :=
    { c0 with buf := writeBytes c0.buf c0.buf_ofs taken,
              buf_ofs := c0.buf_ofs + ntw,
              hgram := fun v => c0.hgram v + taken.count v }
  if c1.buf_ofs = W then
    (ch_step_h { c1 with buf_ofs := 0 }, ntw, true)
  else
    (c1, ntw, false)

/-! ## Hilbert curve (`hilbert_rot`, `hilbert_d2xy`, rwstat.c 84-111) -/

/-- `hilbert_rot` (rwstat.c lines 84-96): when `ry == 0`, optionally reflect
inside the `n`-sized sub-square (for `rx == 1`) and then swap the
coordinates. The C routine works on `int` but is only reached with
`0 ≤ x, y < n`, where `Nat` arithmetic coincides. -/
def hilbert_rot (n x y rx ry : Nat) : Nat × Nat :=
  if ry = 0 then
    if rx = 1 then (n - 1 - y, n - 1 - x) else (y, x)
  else (x, y)

/-- `k` iterations of the loop body of `hilbert_d2xy` (rwstat.c lines
103-110), starting at sub-square size `s`: `rx = 1 & (t / 2)`,
`ry = 1 & (t ^ rx)`, rotate, add the quadrant offset, shift `t` down two
bits and double `s`. -/
def hilbert_iter : Nat → Nat → Nat → Nat × Nat → Nat × Nat
  | 0, _, _, p => p
  | k + 1, s, t, (x, y) =>
    let rx := t / 2 % 2
    let ry := (t ^^^ rx) % 2
    let p := hilbert_rot s x y rx ry
    hilbert_iter k (s * 2) (t / 4) (p.1 + s * rx, p.2 + s * ry)

/-- The C loop `for (s = 1; s < n; s *= 2)` of `hilbert_d2xy`. The extra
`0 < s` guard only rules out the state `s = 0`, which the source never
reaches (it enters with `s = 1` and doubles). -/
def hilbert_loop (n s t x y : Nat) : Nat × Nat :=
  if _h : 0 < s ∧ s < n then
    let rx := t / 2 % 2
    let ry := (t ^^^ rx) % 2
    let p := hilbert_rot s x y rx ry
    hilbert_loop n (s * 2) (t / 4) (p.1 + s * rx) (p.2 + s * ry)
  else (x, y)
termination_by n - s
decreasing_by simp_wf; omega

/-- `hilbert_d2xy` (rwstat.c lines 98-111): map the linear curve index `d`
to an `(x, y)` coordinate, starting from `x = y = 0`, `t = d`, `s = 1`. -/
def hilbert_d2xy (n d : Nat) : Nat × Nat :=
  hilbert_loop n 1 d 0 0

/-- The Hilbert lookup table built by `ch_map` for `MAP_HILBERT` (rwstat.c
lines 459-468): entry `i` of the `base * base` entries is
`hilbert_d2xy(base, i)` (stored flattened as two `uint16_t` in the source). -/
def hilbertTable (base : Nat) : List (Nat × Nat) :=
  (List.range (base * base)).map (hilbert_d2xy base)

/-! ## Sizing / mode-switch state machine (`ch_pack`, `ch_map`, `ch_resize`,
rwstat.c 422-484, 525-552) -/

/-- The channel fields involved in the resize / mode-switch machinery:
window side (`base`), packing and mapping modes, per-sample footprint
(`pack_sz`), raw buffer size (`buf_sz`), the optional curve lookup table and
the configuration-changed flag. The float scale factors `sf_x`, `sf_y` and
the buffer contents reallocated by `ch_resize` are not tracked here. -/
structure SzSt where
  base : Nat
  pack : Pack
  map : Mapping
  pack_sz : Nat
  buf_sz : Nat
  cmap : Option (List (Nat × Nat))
  status_dirty : Bool

mutual

/-- `ch_pack` (rwstat.c lines 422-442) with explicit fuel for the mutual
recursion `ch_pack → ch_resize → ch_map → ch_pack` (which terminates after
one round in the source because the resize establishes the size equation):
set the packing mode, recompute `pack_sz = pack_sizes[pack]` plus 2 for
tuple mapping, resize when `buf_sz` disagrees with
`base² * pack_sz`, and mark the configuration dirty. -/
def ch_pack_f : Nat → SzSt → Pack → SzSt
  | 0, st, _ => st
  | fuel + 1, st, pack =>
    let st1 := { st with pack := pack,
                         pack_sz := pack_sizes pack +
                           (if st.map = .tuple then 2 else 0) }
    let st2 := if st1.buf_sz ≠ st1.base * st1.base * st1.pack_sz
               then ch_resize_f fuel st1 st1.base else st1
    { st2 with status_dirty := true }

/-- `ch_resize` (rwstat.c lines 525-552): reallocate the raw buffer to
`base² * pack_sz` bytes (the alpha buffer to `base²`, not tracked here) and
rebuild the lookup tables through `ch_map`. -/
def ch_resize_f : Nat → SzSt → Nat → SzSt
  | 0, st, _ => st
  | fuel + 1, st, base =>
    let st1 := { st with base := base, buf_sz := base * base * st.pack_sz }
    ch_map_f fuel st1 st1.map

/-- `ch_map` (rwstat.c lines 444-484): set the mapping mode, discard the old
lookup table, build the Hilbert table for `MAP_HILBERT`, re-run `ch_pack`
(the footprint may have changed), mark the configuration dirty and force a
step; `ch_step`'s only effect on these fields is clearing the dirty flag
after reporting, modelled by the final update. -/
def ch_map_f : Nat → SzSt → Mapping → SzSt
  | 0, st, _ => st
  | fuel + 1, st, m =>
    let st1 := { st with map := m,
                         cmap := if m = .hilbert then some (hilbertTable st.base)
                                 else none }
    let st2 := ch_pack_f fuel st1 st1.pack
    { st2 with status_dirty := false }

end

/-! ## Inbound command dispatcher (`rwstat_consume_event`, rwstat.c 559-608) -/

/-- Control-level channel state acted on by the dispatcher: the sizing state
plus the clock and alpha modes. (`switch_alpha` to the constant mode also
memsets the alpha buffer, which is not tracked in this state.) -/
structure Ctl where
  sz : SzSt
  clock : Clock
  amode : Amode

/-- The fields of `arcan_event` inspected by `rwstat_consume_event`: whether
`category == EVENT_TARGET`, whether `tgt.kind == TARGET_COMMAND_GRAPHMODE`,
and the integer selector `tgt.ioevs[0].iv`. -/
structure GEvent where
  categoryTarget : Bool
  kindGraphmode : Bool
  selector : Int

/-- `rwstat_consume_event` (rwstat.c lines 559-608). Returns the channel
state after the call, the boolean result, and the selector reported to the
diagnostic stream by the `default:` branch (`none` when nothing is
printed). -/
def rwstat_consume_event (st : Ctl) (ev : GEvent) : Ctl × Bool × Option Int :=
  if ¬(ev.categoryTarget ∧ ev.kindGraphmode) then (st, false, none)
  else if ev.selector = 0 then ({ st with clock := .block }, true, none)
  else if ev.selector = 1 then ({ st with clock := .slide }, true, none)
  else if ev.selector = 10 then ({ st with sz := ch_map_f 8 st.sz .wrap }, true, none)
  else if ev.selector = 11 then ({ st with sz := ch_map_f 8 st.sz .tuple }, true, none)
  else if ev.selector = 12 then ({ st with sz := ch_map_f 8 st.sz .hilbert }, true, none)
  else if ev.selector = 20 then ({ st with sz := ch_pack_f 8 st.sz .intens }, true, none)
  else if ev.selector = 21 then ({ st with sz := ch_pack_f 8 st.sz .hintens }, true, none)
  else if ev.selector = 22 then ({ st with sz := ch_pack_f 8 st.sz .tight }, true, none)
  else if ev.selector = 23 then ({ st with sz := ch_pack_f 8 st.sz .tnoalpha }, true, none)
  else if ev.selector = 30 then ({ st with amode := .full }, true, none)
  else if ev.selector = 31 then ({ st with amode := .ptn }, true, none)
  else if ev.selector = 32 then ({ st with amode := .entbase }, true, none)
  else (st, false, some ev.selector)

/-! # Theorems -/

/-! ## C1: pattern-alpha pass on a window with two non-overlapping matches -/

/-- C1 (counterexample): with the single emit-event pattern `{0xDE, 0xAD}` of
opacity `0x80` and the window `[1, DE, AD, 2, DE, AD]`, the two full matches
complete at positions 2 and 5 (the paint log records spans starting at 3 and
0, each of length 2), and exactly one match event `(id, 2)` is emitted; but
the alpha entry at completion position 2 still holds the default `0xff`, not
the pattern opacity `0x80`, refuting the claimed painted span
`p - length + 1 .. p`. -/
theorem C1_span_counterexample :
    (update_ptnalpha [1, 0xDE, 0xAD, 2, 0xDE, 0xAD] 9
       [⟨[0xDE, 0xAD], 0, 0, 0x80, 7, false, true⟩] (fun _ => 0)).events = [(7, 2)] ∧
    (update_ptnalpha [1, 0xDE, 0xAD, 2, 0xDE, 0xAD] 9
       [⟨[0xDE, 0xAD], 0, 0, 0x80, 7, false, true⟩] (fun _ => 0)).paints
      = [(3, 2), (0, 2)] ∧
    ¬ (update_ptnalpha [1, 0xDE, 0xAD, 2, 0xDE, 0xAD] 9
       [⟨[0xDE, 0xAD], 0, 0, 0x80, 7, false, true⟩] (fun _ => 0)).alpha 2 = 0x80 := by
  decide

/-- C1 (amended): same scenario; exactly one match event with counter 2 is
emitted, and for each full match completing at window position `p` the alpha
entries from `p - length` through `p - 1` (positions 0,1 and 3,4) equal the
pattern's configured opacity, while the completion positions themselves keep
the running default opacity. -/
theorem C1_amended :
    (update_ptnalpha [1, 0xDE, 0xAD, 2, 0xDE, 0xAD] 9
       [⟨[0xDE, 0xAD], 0, 0, 0x80, 7, false, true⟩] (fun _ => 0)).events = [(7, 2)] ∧
    (update_ptnalpha [1, 0xDE, 0xAD, 2, 0xDE, 0xAD] 9
       [⟨[0xDE, 0xAD], 0, 0, 0x80, 7, false, true⟩] (fun _ => 0)).alpha 0 = 0x80 ∧
    (update_ptnalpha [1, 0xDE, 0xAD, 2, 0xDE, 0xAD] 9
       [⟨[0xDE, 0xAD], 0, 0, 0x80, 7, false, true⟩] (fun _ => 0)).alpha 1 = 0x80 ∧
    (update_ptnalpha [1, 0xDE, 0xAD, 2, 0xDE, 0xAD] 9
       [⟨[0xDE, 0xAD], 0, 0, 0x80, 7, false, true⟩] (fun _ => 0)).alpha 3 = 0x80 ∧
    (update_ptnalpha [1, 0xDE, 0xAD, 2, 0xDE, 0xAD] 9
       [⟨[0xDE, 0xAD], 0, 0, 0x80, 7, false, true⟩] (fun _ => 0)).alpha 4 = 0x80 ∧
    (update_ptnalpha [1, 0xDE, 0xAD, 2, 0xDE, 0xAD] 9
       [⟨[0xDE, 0xAD], 0, 0, 0x80, 7, false, true⟩] (fun _ => 0)).alpha 2 = 0xff ∧
    (update_ptnalpha [1, 0xDE, 0xAD, 2, 0xDE, 0xAD] 9
       [⟨[0xDE, 0xAD], 0, 0, 0x80, 7, false, true⟩] (fun _ => 0)).alpha 5 = 0xff := by
  decide

/-! ## C9: out-of-range paint start on a match completing at position L - 1 -/

/-- C9: a reachable input on which the alpha paint starts below index 0:
the pattern `{0xDE, 0xAD}` (length 2) matched against a window beginning
with those two bytes completes at window position `i = 1 = L - 1`, and the
recorded `memset` into the alpha buffer starts at integer index
`i - L = -1`, which is not a valid alpha-buffer index. -/
theorem C9_oob_paint :
    ((-1 : Int), 2) ∈ (update_ptnalpha [0xDE, 0xAD] 4
       [⟨[0xDE, 0xAD], 0, 0, 0x80, 7, false, true⟩] (fun _ => 0)).paints ∧
    ((-1 : Int) < 0) := by
  decide

/-! ## C2: histogram bucket sum versus bytes absorbed -/

set_option maxRecDepth 40000 in
/-- C2 (evaluation of the code at the failing input): a freshly created
slide-mode channel with a 4-byte window (all histogram buckets zero, i.e.
just after the only reset the table ever gets) ingests the 4-byte chunk
`[1, 2, 3, 4]`. The call consumes 4 bytes and fires a frame step, after
which the histogram buckets sum to 8: `rebuild_hgram` re-accumulated the
window on top of the per-byte increments done at ingest time, so the sum
exceeds the 4 bytes absorbed since the reset. -/
theorem C2_hgram_sum_exceeds_absorbed :
    (ch_data ⟨.slide, [0, 0, 0, 0], 0, fun _ => 0, .intens⟩ [1, 2, 3, 4]).2 = (4, true) ∧
    hgramSum (ch_data ⟨.slide, [0, 0, 0, 0], 0, fun _ => 0, .intens⟩
      [1, 2, 3, 4]).1.hgram = 8 ∧
    ¬ hgramSum (ch_data ⟨.slide, [0, 0, 0, 0], 0, fun _ => 0, .intens⟩
      [1, 2, 3, 4]).1.hgram ≤ 4 := by
  decide

/-! ## C4 and C5: ingest semantics -/

theorem ch_step_h_buf (c : Chan) : (ch_step_h c).buf = c.buf := by
  by_cases h1 : c.clock = .slide <;> by_cases h2 : c.pack = .hintens <;>
    simp [ch_step_h, h1, h2]

theorem ch_step_h_buf_ofs (c : Chan) : (ch_step_h c).buf_ofs = c.buf_ofs := by
  by_cases h1 : c.clock = .slide <;> by_cases h2 : c.pack = .hintens <;>
    simp [ch_step_h, h1, h2]

theorem set_append_cons (a : List Byte) (b' : List Byte) (y x : Byte) :
    (a ++ y :: b').set a.length x = a ++ x :: b' := by
  induction a with
  | nil => rfl
  | cons z a ih => simp [List.set, ih]

theorem writeBytes_append :
    ∀ (cs b a : List Byte), b.length = cs.length →
      writeBytes (a ++ b) a.length cs = a ++ cs := by
  intro cs
  induction cs with
  | nil =>
    intro b a h
    have hb : b = [] := List.eq_nil_of_length_eq_zero h
    simp [hb, writeBytes]
  | cons x rest ih =>
    intro b a h
    match b with
    | [] => simp at h
    | y :: b' =>
      have hb' : b'.length = rest.length := by simpa using h
      show writeBytes ((a ++ y :: b').set a.length x) (a.length + 1) rest = a ++ x :: rest
      rw [set_append_cons]
      have : a ++ x :: b' = (a ++ [x]) ++ b' := by simp
      rw [this]
      have hlen : (a ++ [x]).length = a.length + 1 := by simp
      rw [← hlen, ih b' (a ++ [x]) hb']
      simp

/-- C4: slide-mode ingest of a chunk strictly shorter than the window. The
whole chunk is consumed, a frame is built, and the new window is the old
window's last `W - L` bytes followed by the chunk. -/
theorem C4_slide_ingest (c : Chan) (chunk : List Byte)
    (hclk : c.clock = .slide) (hlen : chunk.length < c.buf.length) :
    (ch_data c chunk).1.buf = c.buf.drop chunk.length ++ chunk ∧
    (ch_data c chunk).2.1 = chunk.length ∧
    (ch_data c chunk).2.2 = true := by
  have hle : chunk.length ≤ c.buf.length := le_of_lt hlen
  have hcond : c.buf.length - chunk.length + chunk.length = c.buf.length := by omega
  have ha : (c.buf.drop chunk.length).length = c.buf.length - chunk.length := by
    simp
  have hb : (c.buf.drop (c.buf.length - chunk.length)).length = chunk.length := by
    simp
    omega
  have hwrite :
      writeBytes (c.buf.drop chunk.length ++ c.buf.drop (c.buf.length - chunk.length))
        (c.buf.length - chunk.length) chunk
        = c.buf.drop chunk.length ++ chunk := by
    nth_rewrite 2 [← ha]
    exact writeBytes_append chunk _ _ hb
  simp only [ch_data, hclk, if_pos hlen, reduceIte, List.take_length, hcond,
    if_pos rfl]
  refine ⟨?_, by trivial, by trivial⟩
  rw [ch_step_h_buf]
  exact hwrite

/-- C5: block-mode ingest consumes `min length (W - buf_ofs)` bytes; a frame
is built exactly when the fill offset reaches the window size, and then the
fill offset is reset to zero. -/
theorem C5_block_ingest (c : Chan) (chunk : List Byte)
    (hclk : c.clock = .block) (_hofs : c.buf_ofs ≤ c.buf.length) :
    (ch_data c chunk).2.1 = min chunk.length (c.buf.length - c.buf_ofs) ∧
    ((ch_data c chunk).2.2 = true ↔
      c.buf_ofs + min chunk.length (c.buf.length - c.buf_ofs) = c.buf.length) ∧
    ((ch_data c chunk).2.2 = true → (ch_data c chunk).1.buf_ofs = 0) := by
  have h1 : ¬ c.clock = .slide := by
    rw [hclk]
    simp
  by_cases hfull : c.buf_ofs + min chunk.length (c.buf.length - c.buf_ofs) = c.buf.length
  · simp only [ch_data, h1, reduceIte, hfull, if_pos rfl]
    exact ⟨by trivial, by simp, fun _ => by rw [ch_step_h_buf_ofs]⟩
  · simp only [ch_data, h1, reduceIte, if_neg hfull]
    exact ⟨by trivial, by simp [hfull], by simp⟩

/-- Witness for C4 at a concrete input: a slide-mode channel holding window
`[1,2,3,4]` ingests the single byte `[9]` and ends up with window
`[2,3,4,9]`, consuming 1 byte and building a frame. -/
theorem C4_slide_ingest_witness :
    (ch_data ⟨.slide, [1, 2, 3, 4], 0, fun _ => 0, .intens⟩ [9]).1.buf = [2, 3, 4, 9] ∧
    (ch_data ⟨.slide, [1, 2, 3, 4], 0, fun _ => 0, .intens⟩ [9]).2.1 = 1 ∧
    (ch_data ⟨.slide, [1, 2, 3, 4], 0, fun _ => 0, .intens⟩ [9]).2.2 = true := by
  have h := C4_slide_ingest ⟨.slide, [1, 2, 3, 4], 0, fun _ => 0, .intens⟩ [9]
    rfl (by decide)
  simpa using h

/-- Witness for C5 at a concrete input: a block-mode channel with a 4-byte
window filled to offset 2 ingests `[5,6,7]`; exactly `min 3 (4-2) = 2` bytes
are consumed, the window fills, a frame is built and the offset resets. -/
theorem C5_block_ingest_witness :
    (ch_data ⟨.block, [0, 0, 0, 0], 2, fun _ => 0, .intens⟩ [5, 6, 7]).2.1 = 2 ∧
    (ch_data ⟨.block, [0, 0, 0, 0], 2, fun _ => 0, .intens⟩ [5, 6, 7]).2.2 = true ∧
    (ch_data ⟨.block, [0, 0, 0, 0], 2, fun _ => 0, .intens⟩ [5, 6, 7]).1.buf_ofs = 0 := by
  have h := C5_block_ingest ⟨.block, [0, 0, 0, 0], 2, fun _ => 0, .intens⟩ [5, 6, 7]
    rfl (by decide)
  have hstep := h.2.1.mpr (by decide)
  exact ⟨by simpa using h.1, hstep, h.2.2 hstep⟩

/-! ## C10: the matcher never resets on a mismatch, so any in-order
subsequence occurrence completes a match -/

theorem matchStep_snd_le (pbuf : List Byte) (s : Nat × Nat) (b : Byte) :
    s.2 ≤ (matchStep pbuf s b).2 := by
  unfold matchStep
  split
  · split <;> simp
  · exact le_refl _

theorem matchRun_snd_le (pbuf : List Byte) :
    ∀ (w : List Byte) (s : Nat × Nat), s.2 ≤ (matchRun pbuf w s).2 := by
  intro w
  induction w with
  | nil => intro s; exact le_refl _
  | cons b w ih =>
    intro s
    exact le_trans (matchStep_snd_le pbuf s b) (ih (matchStep pbuf s b))

theorem matchRun_completes_of_sublist (pbuf : List Byte) :
    ∀ (w : List Byte) (pos c : Nat),
      pos < pbuf.length → (pbuf.drop pos).Sublist w →
      c + 1 ≤ (matchRun pbuf w (pos, c)).2 := by
  intro w
  induction w with
  | nil =>
    intro pos c hpos hsub
    have hnil : pbuf.drop pos = [] := List.sublist_nil.mp hsub
    have := congrArg List.length hnil
    simp at this
    omega
  | cons b w ih =>
    intro pos c hpos hsub
    have hd : pbuf.drop pos = pbuf[pos] :: pbuf.drop (pos + 1) :=
      List.drop_eq_getElem_cons hpos
    rw [hd] at hsub
    have hgd : pbuf.getD pos 0 = pbuf[pos] := List.getD_eq_getElem pbuf 0 hpos
    have hrun : matchRun pbuf (b :: w) (pos, c)
        = matchRun pbuf w (matchStep pbuf (pos, c) b) := rfl
    by_cases hb : pbuf[pos] = b
    · by_cases hcomp : pos + 1 = pbuf.length
      · have hstep : matchStep pbuf (pos, c) b = (0, c + 1) := by
          unfold matchStep
          dsimp only
          rw [hgd, if_pos hb, if_pos hcomp]
        rw [hrun, hstep]
        exact matchRun_snd_le pbuf w (0, c + 1)
      · have hstep : matchStep pbuf (pos, c) b = (pos + 1, c) := by
          unfold matchStep
          dsimp only
          rw [hgd, if_pos hb, if_neg hcomp]
        have hlt : pos + 1 < pbuf.length := by omega
        have hsub' : (pbuf.drop (pos + 1)).Sublist w := by
          cases hsub with
          | cons _ h =>
            exact List.Sublist.trans (List.sublist_cons_self _ _) h
          | cons₂ _ h => exact h
        rw [hrun, hstep]
        exact ih (pos + 1) c hlt hsub'
    · have hstep : matchStep pbuf (pos, c) b = (pos, c) := by
        unfold matchStep
        dsimp only
        rw [hgd, if_neg hb]
      have hsub' : (pbuf.drop pos).Sublist w := by
        cases hsub with
        | cons _ h =>
          rw [hd]
          exact h
        | cons₂ _ h => exact absurd rfl hb
      rw [hrun, hstep, ← hd] at *
      exact ih pos c hpos hsub'

theorem ptnStep_single (i : Nat) (b : Byte) (pbuf : List Byte) (pos ev : Nat)
    (a : Byte) (pid : Nat) (fs : Bool) (al : Int → Byte) (av : Byte)
    (ps : List (Int × Nat)) :
    (ptnStep i b ⟨pbuf, pos, ev, a, pid, fs, true⟩ al av ps).1
      = ⟨pbuf, (matchStep pbuf (pos, ev) b).1, (matchStep pbuf (pos, ev) b).2,
          a, pid, fs, true⟩ := by
  unfold ptnStep matchStep
  dsimp only
  split
  · split <;> rfl
  · rfl

theorem passLoop_single (pbuf : List Byte) (a : Byte) (pid : Nat) (fs : Bool) :
    ∀ (w : List Byte) (i pos ev : Nat) (al : Int → Byte) (av : Byte)
      (ps : List (Int × Nat)),
      ∃ al' av' ps',
        passLoop i w [⟨pbuf, pos, ev, a, pid, fs, true⟩] al av ps
          = ([⟨pbuf, (matchRun pbuf w (pos, ev)).1, (matchRun pbuf w (pos, ev)).2,
               a, pid, fs, true⟩], al', av', ps') := by
  intro w
  induction w with
  | nil =>
    intro i pos ev al av ps
    exact ⟨al, av, ps, rfl⟩
  | cons b w ih =>
    intro i pos ev al av ps
    have hexp : passLoop i (b :: w) [⟨pbuf, pos, ev, a, pid, fs, true⟩] al av ps
        = passLoop (i + 1) w
            [⟨pbuf, (matchStep pbuf (pos, ev) b).1, (matchStep pbuf (pos, ev) b).2,
              a, pid, fs, true⟩]
            (ptnStep i b ⟨pbuf, pos, ev, a, pid, fs, true⟩
              (fun k => if k = (i : Int) then av else al k) av ps).2.1
            (ptnStep i b ⟨pbuf, pos, ev, a, pid, fs, true⟩
              (fun k => if k = (i : Int) then av else al k) av ps).2.2.1
            (ptnStep i b ⟨pbuf, pos, ev, a, pid, fs, true⟩
              (fun k => if k = (i : Int) then av else al k) av ps).2.2.2 := by
      conv_lhs => rw [passLoop]
      rw [show ptnLoop i b [⟨pbuf, pos, ev, a, pid, fs, true⟩]
            (fun k => if k = (i : Int) then av else al k) av ps
          = ((ptnStep i b ⟨pbuf, pos, ev, a, pid, fs, true⟩
               (fun k => if k = (i : Int) then av else al k) av ps).1 ::
              ([] : List Ptn),
             (ptnStep i b ⟨pbuf, pos, ev, a, pid, fs, true⟩
               (fun k => if k = (i : Int) then av else al k) av ps).2) from rfl]
      rw [ptnStep_single]
    rw [hexp]
    have hrw : matchRun pbuf (b :: w) (pos, ev)
        = matchRun pbuf w (matchStep pbuf (pos, ev) b) := rfl
    rw [hrw]
    exact ih (i + 1) (matchStep pbuf (pos, ev) b).1 (matchStep pbuf (pos, ev) b).2 _ _ _

/-- C10: the match-progress counter is never reset or decreased by a
mismatching byte (it only moves on a byte equal to the expected pattern
byte, and returns to zero exactly on a full completion); consequently, for
every window in which a nonempty pattern's bytes occur in order as a
possibly non-contiguous subsequence, the pattern completes at least one
full match, and the pattern-alpha pass over that window emits a match event
for it carrying that (nonzero) completion count. -/
theorem C10_subsequence_matches (pbuf w : List Byte) (a : Byte) (pid : Nat)
    (al : Int → Byte) (base2 : Nat)
    (hne : pbuf ≠ []) (hsub : pbuf.Sublist w) :
    (∀ (s : Nat × Nat) (b : Byte), ¬ pbuf.getD s.1 0 = b → matchStep pbuf s b = s) ∧
    1 ≤ (matchRun pbuf w (0, 0)).2 ∧
    (update_ptnalpha w base2 [⟨pbuf, 0, 0, a, pid, false, true⟩] al).events
      = [(pid, (matchRun pbuf w (0, 0)).2)] := by
  have hpos : 0 < pbuf.length := List.length_pos.mpr hne
  have hcomp : 1 ≤ (matchRun pbuf w (0, 0)).2 := by
    have := matchRun_completes_of_sublist pbuf w 0 0 hpos (by simpa using hsub)
    omega
  refine ⟨?_, hcomp, ?_⟩
  · intro s b hb
    unfold matchStep
    rw [if_neg hb]
  · unfold update_ptnalpha
    simp only [List.length_cons, List.length_nil]
    rw [if_neg (by decide)]
    obtain ⟨al', av', ps', hrun⟩ := passLoop_single pbuf a pid false w 0 0 0 al 0xff []
    simp only [List.map_cons, List.map_nil]
    rw [show ({ buf := pbuf, buf_pos := 0, evc := 0, alpha := a, id := pid,
                flagState := false, flagEvent := true : Ptn} : Ptn)
        = (⟨pbuf, 0, 0, a, pid, false, true⟩ : Ptn) from rfl]
    rw [hrun]
    have hne0 : (matchRun pbuf w (0, 0)).2 ≠ 0 := by omega
    have hne0' : (matchRun pbuf w 0).2 ≠ 0 := hne0
    simp [hne0, hne0']

/-- Witness for C10: the pattern `{0xDE, 0xAD}` occurs in `[DE, 05, AD]`
only as a non-contiguous subsequence, yet the matcher completes once and
the pass reports the match event. -/
theorem C10_subsequence_matches_witness :
    1 ≤ (matchRun [0xDE, 0xAD] [0xDE, 5, 0xAD] (0, 0)).2 ∧
    (update_ptnalpha [0xDE, 5, 0xAD] 4 [⟨[0xDE, 0xAD], 0, 0, 0x80, 7, false, true⟩]
        (fun _ => 0)).events
      = [(7, (matchRun [0xDE, 0xAD] [0xDE, 5, 0xAD] (0, 0)).2)] := by
  have h := C10_subsequence_matches [0xDE, 0xAD] [0xDE, 5, 0xAD] 0x80 7
    (fun _ => 0) 4 (by decide) (by decide)
  exact ⟨h.2.1, h.2.2⟩

/-! ## C6: per-sample footprint and raw buffer size after mode switches -/

theorem ch_pack_f_succ (fuel : Nat) (st : SzSt) (p : Pack) :
    ch_pack_f (fuel + 1) st p =
      { (if st.buf_sz ≠ st.base * st.base *
            (pack_sizes p + (if st.map = .tuple then 2 else 0))
         then ch_resize_f fuel
           { st with pack := p,
                     pack_sz := pack_sizes p + (if st.map = .tuple then 2 else 0) }
           st.base
         else { st with pack := p,
                        pack_sz := pack_sizes p +
                          (if st.map = .tuple then 2 else 0) })
        with status_dirty := true } := rfl

theorem ch_resize_f_succ (fuel : Nat) (st : SzSt) (b : Nat) :
    ch_resize_f (fuel + 1) st b =
      ch_map_f fuel { st with base := b, buf_sz := b * b * st.pack_sz } st.map := rfl

theorem ch_map_f_succ (fuel : Nat) (st : SzSt) (m : Mapping) :
    ch_map_f (fuel + 1) st m =
      { ch_pack_f fuel
          { st with map := m,
                    cmap := if m = .hilbert then some (hilbertTable st.base) else none }
          st.pack
        with status_dirty := false } := rfl

/-- Full description of the state after `ch_pack` with the fuel used by the
model (the source recursion terminates after at most one resize round): the
requested packing mode is installed, mapping mode and window side are
preserved, and the footprint / buffer-size equations hold. -/
theorem ch_pack_f_8_spec (st : SzSt) (p : Pack) :
    (ch_pack_f 8 st p).pack = p ∧
    (ch_pack_f 8 st p).map = st.map ∧
    (ch_pack_f 8 st p).base = st.base ∧
    (ch_pack_f 8 st p).pack_sz
      = pack_sizes p + (if st.map = .tuple then 2 else 0) ∧
    (ch_pack_f 8 st p).buf_sz
      = st.base * st.base * (pack_sizes p + (if st.map = .tuple then 2 else 0)) := by
  rw [show (8 : Nat) = 7 + 1 from rfl, ch_pack_f_succ]
  by_cases h : st.buf_sz
      = st.base * st.base * (pack_sizes p + (if st.map = .tuple then 2 else 0))
  · rw [if_neg (by simpa using h)]
    exact ⟨rfl, rfl, rfl, rfl, h⟩
  · rw [if_pos (by simpa using h)]
    rw [show (7 : Nat) = 6 + 1 from rfl, ch_resize_f_succ]
    rw [show (6 : Nat) = 5 + 1 from rfl, ch_map_f_succ]
    rw [show (5 : Nat) = 4 + 1 from rfl, ch_pack_f_succ]
    dsimp only
    rw [if_neg (by simp)]
    exact ⟨rfl, rfl, rfl, rfl, rfl⟩

/-- Full description of the state after `ch_map` with the fuel used by the
model: the requested mapping mode is installed, the packing mode and the
window side are preserved, the lookup table is rebuilt (the Hilbert table
for curve mapping, discarded otherwise), and the footprint / buffer-size
equations hold. -/
theorem ch_map_f_8_spec (st : SzSt) (m : Mapping) :
    (ch_map_f 8 st m).pack = st.pack ∧
    (ch_map_f 8 st m).map = m ∧
    (ch_map_f 8 st m).base = st.base ∧
    (ch_map_f 8 st m).cmap
      = (if m = .hilbert then some (hilbertTable st.base) else none) ∧
    (ch_map_f 8 st m).pack_sz
      = pack_sizes st.pack + (if m = .tuple then 2 else 0) ∧
    (ch_map_f 8 st m).buf_sz
      = st.base * st.base * (pack_sizes st.pack + (if m = .tuple then 2 else 0)) := by
  rw [show (8 : Nat) = 7 + 1 from rfl, ch_map_f_succ]
  rw [show (7 : Nat) = 6 + 1 from rfl, ch_pack_f_succ]
  dsimp only
  by_cases h : st.buf_sz
      = st.base * st.base * (pack_sizes st.pack + (if m = .tuple then 2 else 0))
  · rw [if_neg (by simpa using h)]
    exact ⟨rfl, rfl, rfl, rfl, rfl, h⟩
  · rw [if_pos (by simpa using h)]
    rw [show (6 : Nat) = 5 + 1 from rfl, ch_resize_f_succ]
    rw [show (5 : Nat) = 4 + 1 from rfl, ch_map_f_succ]
    rw [show (4 : Nat) = 3 + 1 from rfl, ch_pack_f_succ]
    dsimp only
    rw [if_neg (by simp)]
    exact ⟨rfl, rfl, rfl, rfl, rfl, rfl⟩

/-- C6: after every `switch_packing` or `switch_mapping` operation the
per-sample footprint equals the base footprint of the active packing mode
(4, 3, 1, 1 bytes) plus 2 extra bytes for coordinate-tuple mapping, and the
raw buffer size equals side² times this footprint, hence is divisible by
side². -/
theorem C6_footprint_invariant :
    (∀ (st : SzSt) (p : Pack),
      (ch_pack_f 8 st p).pack_sz
        = pack_sizes (ch_pack_f 8 st p).pack
          + (if (ch_pack_f 8 st p).map = .tuple then 2 else 0) ∧
      (ch_pack_f 8 st p).buf_sz
        = (ch_pack_f 8 st p).base * (ch_pack_f 8 st p).base
          * (ch_pack_f 8 st p).pack_sz ∧
      (ch_pack_f 8 st p).buf_sz
        % ((ch_pack_f 8 st p).base * (ch_pack_f 8 st p).base) = 0) ∧
    (∀ (st : SzSt) (m : Mapping),
      (ch_map_f 8 st m).pack_sz
        = pack_sizes (ch_map_f 8 st m).pack
          + (if (ch_map_f 8 st m).map = .tuple then 2 else 0) ∧
      (ch_map_f 8 st m).buf_sz
        = (ch_map_f 8 st m).base * (ch_map_f 8 st m).base
          * (ch_map_f 8 st m).pack_sz ∧
      (ch_map_f 8 st m).buf_sz
        % ((ch_map_f 8 st m).base * (ch_map_f 8 st m).base) = 0) := by
  constructor
  · intro st p
    obtain ⟨h1, h2, h3, h4, h5⟩ := ch_pack_f_8_spec st p
    rw [h1, h2, h3, h4, h5]
    exact ⟨rfl, rfl, Nat.mul_mod_right _ _⟩
  · intro st m
    obtain ⟨h1, h2, h3, _, h5, h6⟩ := ch_map_f_8_spec st m
    rw [h1, h2, h3, h5, h6]
    exact ⟨rfl, rfl, Nat.mul_mod_right _ _⟩

/-! ## C8: the inbound command dispatcher -/

/-- C8: the dispatcher maps selector 0/1 to clock block/slide, 10/11/12 to
mapping raster/tuple/curve, 20/21/22/23 to packing
intensity/hist-intensity/tight/tight-no-alpha, 30/31/32 to alpha
constant/pattern/entropy, returning success; every other selector yields
failure, leaves the channel state unchanged, and is reported to the
diagnostic stream. -/
theorem C8_dispatch (st : Ctl) (sel : Int) :
    (sel ∉ ([0, 1, 10, 11, 12, 20, 21, 22, 23, 30, 31, 32] : List Int) →
      rwstat_consume_event st ⟨true, true, sel⟩ = (st, false, some sel)) ∧
    rwstat_consume_event st ⟨true, true, 0⟩
      = ({ st with clock := .block }, true, none) ∧
    rwstat_consume_event st ⟨true, true, 1⟩
      = ({ st with clock := .slide }, true, none) ∧
    (rwstat_consume_event st ⟨true, true, 10⟩
      = ({ st with sz := ch_map_f 8 st.sz .wrap }, true, none)
      ∧ (ch_map_f 8 st.sz .wrap).map = .wrap) ∧
    (rwstat_consume_event st ⟨true, true, 11⟩
      = ({ st with sz := ch_map_f 8 st.sz .tuple }, true, none)
      ∧ (ch_map_f 8 st.sz .tuple).map = .tuple) ∧
    (rwstat_consume_event st ⟨true, true, 12⟩
      = ({ st with sz := ch_map_f 8 st.sz .hilbert }, true, none)
      ∧ (ch_map_f 8 st.sz .hilbert).map = .hilbert) ∧
    (rwstat_consume_event st ⟨true, true, 20⟩
      = ({ st with sz := ch_pack_f 8 st.sz .intens }, true, none)
      ∧ (ch_pack_f 8 st.sz .intens).pack = .intens) ∧
    (rwstat_consume_event st ⟨true, true, 21⟩
      = ({ st with sz := ch_pack_f 8 st.sz .hintens }, true, none)
      ∧ (ch_pack_f 8 st.sz .hintens).pack = .hintens) ∧
    (rwstat_consume_event st ⟨true, true, 22⟩
      = ({ st with sz := ch_pack_f 8 st.sz .tight }, true, none)
      ∧ (ch_pack_f 8 st.sz .tight).pack = .tight) ∧
    (rwstat_consume_event st ⟨true, true, 23⟩
      = ({ st with sz := ch_pack_f 8 st.sz .tnoalpha }, true, none)
      ∧ (ch_pack_f 8 st.sz .tnoalpha).pack = .tnoalpha) ∧
    rwstat_consume_event st ⟨true, true, 30⟩
      = ({ st with amode := .full }, true, none) ∧
    rwstat_consume_event st ⟨true, true, 31⟩
      = ({ st with amode := .ptn }, true, none) ∧
    rwstat_consume_event st ⟨true, true, 32⟩
      = ({ st with amode := .entbase }, true, none) := by
  refine ⟨?_, rfl, rfl, ⟨rfl, (ch_map_f_8_spec st.sz .wrap).2.1⟩,
    ⟨rfl, (ch_map_f_8_spec st.sz .tuple).2.1⟩,
    ⟨rfl, (ch_map_f_8_spec st.sz .hilbert).2.1⟩,
    ⟨rfl, (ch_pack_f_8_spec st.sz .intens).1⟩,
    ⟨rfl, (ch_pack_f_8_spec st.sz .hintens).1⟩,
    ⟨rfl, (ch_pack_f_8_spec st.sz .tight).1⟩,
    ⟨rfl, (ch_pack_f_8_spec st.sz .tnoalpha).1⟩, rfl, rfl, rfl⟩
  intro hsel
  simp only [List.mem_cons, List.not_mem_nil, or_false, not_or] at hsel
  obtain ⟨h0, h1, h10, h11, h12, h20, h21, h22, h23, h30, h31, h32⟩ := hsel
  simp [rwstat_consume_event, h0, h1, h10, h11, h12, h20, h21, h22, h23,
    h30, h31, h32]

/-- Witness for C8 at a concrete unknown selector: selector 5 on a concrete
channel state is rejected, the state is returned unchanged and the selector
is reported. -/
theorem C8_dispatch_witness :
    rwstat_consume_event ⟨⟨2, .tight, .wrap, 4, 16, none, false⟩, .block, .full⟩
        ⟨true, true, 5⟩
      = (⟨⟨2, .tight, .wrap, 4, 16, none, false⟩, .block, .full⟩, false, some 5) :=
  (C8_dispatch ⟨⟨2, .tight, .wrap, 4, 16, none, false⟩, .block, .full⟩ 5).1
    (by decide)

/-! ## C7: the entropy estimator -/

/-- C7 (counterexample): the buffer `[0, 0, 1, 1]` is uniformly distributed
over `m = 2` distinct symbols, but `shent` returns 2, not `log2 2 = 1`: the
sum runs over buffer positions, so each symbol's probability term is counted
once per occurrence. -/
theorem C7_uniform_counterexample : shent [0, 0, 1, 1] ≠ Real.logb 2 2 := by
  have hlog : Real.logb 2 ((1 : ℝ) / 2) = -1 := by
    rw [one_div, Real.logb_inv, Real.logb_self_eq_one (by norm_num)]
  have hval : shent [0, 0, 1, 1] = 2 := by
    unfold shent shent_h
    norm_num [List.count_cons, hlog]
  rw [hval, Real.logb_self_eq_one (by norm_num)]
  norm_num

/-- C7 (amended): `shent_h` is the negated sum over buffer positions of
`p_i * log2 p_i` with `p_i = hgram[buf[i]] / len`; a nonempty buffer of one
repeated byte has entropy 0; and a buffer uniformly distributed over `m`
distinct symbols, each occurring `t` times, has entropy `t * log2 m` — which
equals `log2 m` exactly when each symbol occurs once (`t = 1`), not for
every uniform buffer. -/
theorem C7_entropy_amended :
    (∀ (buf : List Byte) (hg : Byte → Nat),
      shent_h buf hg
        = -(buf.map (fun b =>
            ((hg b : ℝ) / (buf.length : ℝ)) *
              Real.logb 2 ((hg b : ℝ) / (buf.length : ℝ)))).sum) ∧
    (∀ (v : Byte) (n : Nat), 0 < n → shent (List.replicate n v) = 0) ∧
    (∀ (buf : List Byte) (m t : Nat), 0 < m → 0 < t →
      buf.length = m * t → (∀ b ∈ buf, buf.count b = t) →
      shent buf = t * Real.logb 2 m) := by
  refine ⟨fun buf hg => rfl, ?_, ?_⟩
  · intro v n hn
    have hone : ((n : ℝ) / (n : ℝ)) = 1 :=
      div_self (Nat.cast_ne_zero.mpr hn.ne')
    unfold shent shent_h
    simp [List.map_replicate, hone, Real.logb_one]
  · intro buf m t hm ht hlen hcount
    have hm' : (m : ℝ) ≠ 0 := Nat.cast_ne_zero.mpr hm.ne'
    have ht' : (t : ℝ) ≠ 0 := Nat.cast_ne_zero.mpr ht.ne'
    have hconst : ∀ b ∈ buf,
        ((buf.count b : ℝ) / (buf.length : ℝ)) *
            Real.logb 2 ((buf.count b : ℝ) / (buf.length : ℝ))
          = ((m : ℝ))⁻¹ * Real.logb 2 (((m : ℝ))⁻¹) := by
      intro b hb
      rw [hcount b hb, hlen]
      have : ((t : ℝ)) / (((m * t : ℕ) : ℝ)) = ((m : ℝ))⁻¹ := by
        push_cast
        field_simp
        ring
      rw [this]
    unfold shent shent_h
    rw [List.map_congr_left hconst]
    have hmapc : buf.map (fun _ => ((m : ℝ))⁻¹ * Real.logb 2 (((m : ℝ))⁻¹))
        = List.replicate buf.length (((m : ℝ))⁻¹ * Real.logb 2 (((m : ℝ))⁻¹)) :=
      List.map_const' buf _
    rw [hmapc, List.sum_replicate, hlen, Real.logb_inv]
    field_simp
    ring

/-- Witness for C7 (amended) at concrete inputs: a constant buffer of three
`7` bytes has entropy 0, and `[0, 0, 1, 1]` (two symbols, each twice) has
entropy `2 * log2 2`. -/
theorem C7_entropy_amended_witness :
    shent (List.replicate 3 7) = 0 ∧ shent [0, 0, 1, 1] = 2 * Real.logb 2 2 := by
  refine ⟨C7_entropy_amended.2.1 7 3 (by norm_num), ?_⟩
  have h := C7_entropy_amended.2.2 [0, 0, 1, 1] 2 2 (by norm_num) (by norm_num)
    (by decide) (by decide)
  simpa using h

/-! ## C3: the Hilbert mapping table is a bijection onto the grid -/

theorem hilbert_iter_succ (k s t x y : Nat) :
    hilbert_iter (k + 1) s t (x, y)
      = hilbert_iter k (s * 2) (t / 4)
          ((hilbert_rot s x y (t / 2 % 2) ((t ^^^ t / 2 % 2) % 2)).1 + s * (t / 2 % 2),
           (hilbert_rot s x y (t / 2 % 2) ((t ^^^ t / 2 % 2) % 2)).2
             + s * ((t ^^^ t / 2 % 2) % 2)) := rfl

theorem hilbert_rot_range (s x y rx ry : Nat) (hx : x < s) (hy : y < s) :
    (hilbert_rot s x y rx ry).1 < s ∧ (hilbert_rot s x y rx ry).2 < s := by
  unfold hilbert_rot
  split
  · split
    · exact ⟨by dsimp only; omega, by dsimp only; omega⟩
    · exact ⟨hy, hx⟩
  · exact ⟨hx, hy⟩

theorem hilbert_rot_inj (s x y x' y' rx ry : Nat)
    (hx : x < s) (hy : y < s) (hx' : x' < s) (hy' : y' < s)
    (h : hilbert_rot s x y rx ry = hilbert_rot s x' y' rx ry) :
    x = x' ∧ y = y' := by
  unfold hilbert_rot at h
  split at h
  · split at h
    · rw [Prod.mk.injEq] at h
      omega
    · rw [Prod.mk.injEq] at h
      omega
  · rw [Prod.mk.injEq] at h
    exact h

theorem hilbert_iter_range :
    ∀ (k s t x y : Nat), 0 < s → x < s → y < s →
      (hilbert_iter k s t (x, y)).1 < s * 2 ^ k ∧
      (hilbert_iter k s t (x, y)).2 < s * 2 ^ k := by
  intro k
  induction k with
  | zero =>
    intro s t x y hs hx hy
    simpa [hilbert_iter] using ⟨hx, hy⟩
  | succ k ih =>
    intro s t x y hs hx hy
    rw [hilbert_iter_succ]
    have hrx : t / 2 % 2 ≤ 1 := by omega
    have hry : (t ^^^ t / 2 % 2) % 2 ≤ 1 := by omega
    obtain ⟨h1, h2⟩ := hilbert_rot_range s x y (t / 2 % 2) ((t ^^^ t / 2 % 2) % 2) hx hy
    have hsrx : s * (t / 2 % 2) ≤ s := by
      calc s * (t / 2 % 2) ≤ s * 1 := Nat.mul_le_mul_left s hrx
        _ = s := Nat.mul_one s
    have hsry : s * ((t ^^^ t / 2 % 2) % 2) ≤ s := by
      calc s * ((t ^^^ t / 2 % 2) % 2) ≤ s * 1 := Nat.mul_le_mul_left s hry
        _ = s := Nat.mul_one s
    have hb1 : (hilbert_rot s x y (t / 2 % 2) ((t ^^^ t / 2 % 2) % 2)).1
        + s * (t / 2 % 2) < s * 2 := by omega
    have hb2 : (hilbert_rot s x y (t / 2 % 2) ((t ^^^ t / 2 % 2) % 2)).2
        + s * ((t ^^^ t / 2 % 2) % 2) < s * 2 := by omega
    have := ih (s * 2) (t / 4) _ _ (by omega) hb1 hb2
    have hpow : s * 2 * 2 ^ k = s * 2 ^ (k + 1) := by ring
    rw [hpow] at this
    exact this

theorem hilbert_iter_inj :
    ∀ (k s : Nat), 0 < s → ∀ (t t' x y x' y' : Nat),
      t < 4 ^ k → t' < 4 ^ k → x < s → y < s → x' < s → y' < s →
      hilbert_iter k s t (x, y) = hilbert_iter k s t' (x', y') →
      t = t' ∧ x = x' ∧ y = y' := by
  intro k
  induction k with
  | zero =>
    intro s hs t t' x y x' y' ht ht' hx hy hx' hy' h
    simp only [pow_zero, Nat.lt_one_iff] at ht ht'
    simp only [hilbert_iter, Prod.mk.injEq] at h
    exact ⟨ht.trans ht'.symm, h⟩
  | succ k ih =>
    intro s hs t t' x y x' y' ht ht' hx hy hx' hy' h
    rw [hilbert_iter_succ, hilbert_iter_succ] at h
    have h4 : 4 ^ (k + 1) = 4 ^ k * 4 := pow_succ 4 k
    have hrx : t / 2 % 2 ≤ 1 := by omega
    have hry : (t ^^^ t / 2 % 2) % 2 ≤ 1 := by omega
    have hrx' : t' / 2 % 2 ≤ 1 := by omega
    have hry' : (t' ^^^ t' / 2 % 2) % 2 ≤ 1 := by omega
    obtain ⟨ha1, ha2⟩ :=
      hilbert_rot_range s x y (t / 2 % 2) ((t ^^^ t / 2 % 2) % 2) hx hy
    obtain ⟨hb1, hb2⟩ :=
      hilbert_rot_range s x' y' (t' / 2 % 2) ((t' ^^^ t' / 2 % 2) % 2) hx' hy'
    have hc1 : (hilbert_rot s x y (t / 2 % 2) ((t ^^^ t / 2 % 2) % 2)).1
        + s * (t / 2 % 2) < s * 2 := by
      have : s * (t / 2 % 2) ≤ s * 1 := Nat.mul_le_mul_left s hrx
      omega
    have hc2 : (hilbert_rot s x y (t / 2 % 2) ((t ^^^ t / 2 % 2) % 2)).2
        + s * ((t ^^^ t / 2 % 2) % 2) < s * 2 := by
      have : s * ((t ^^^ t / 2 % 2) % 2) ≤ s * 1 := Nat.mul_le_mul_left s hry
      omega
    have hd1 : (hilbert_rot s x' y' (t' / 2 % 2) ((t' ^^^ t' / 2 % 2) % 2)).1
        + s * (t' / 2 % 2) < s * 2 := by
      have : s * (t' / 2 % 2) ≤ s * 1 := Nat.mul_le_mul_left s hrx'
      omega
    have hd2 : (hilbert_rot s x' y' (t' / 2 % 2) ((t' ^^^ t' / 2 % 2) % 2)).2
        + s * ((t' ^^^ t' / 2 % 2) % 2) < s * 2 := by
      have : s * ((t' ^^^ t' / 2 % 2) % 2) ≤ s * 1 := Nat.mul_le_mul_left s hry'
      omega
    obtain ⟨he, hfst, hsnd⟩ := ih (s * 2) (by omega) (t / 4) (t' / 4) _ _ _ _
      (by omega) (by omega) hc1 hc2 hd1 hd2 h
    have e1 : (t ^^^ t / 2 % 2) % 2 = (t + t / 2 % 2) % 2 := Nat.xor_mod_two_eq
    have e2 : (t' ^^^ t' / 2 % 2) % 2 = (t' + t' / 2 % 2) % 2 := Nat.xor_mod_two_eq
    -- make the four quadrant bits opaque so that case analysis on their
    -- values rewrites every occurrence uniformly
    set ry1 := (t ^^^ t / 2 % 2) % 2 with hry1
    set ry2 := (t' ^^^ t' / 2 % 2) % 2 with hry2
    set rx1 := t / 2 % 2 with hrx1
    set rx2 := t' / 2 % 2 with hrx2
    clear_value ry1 ry2 rx1 rx2
    have hbits : rx1 = rx2 ∧ ry1 = ry2 := by
      have hryc : ry1 = 0 ∨ ry1 = 1 := by omega
      have hryc' : ry2 = 0 ∨ ry2 = 1 := by omega
      have hrxc : rx1 = 0 ∨ rx1 = 1 := by omega
      have hrxc' : rx2 = 0 ∨ rx2 = 1 := by omega
      rcases hryc with h3 | h3 <;> rcases hryc' with h4 | h4 <;>
        rcases hrxc with h1 | h1 <;> rcases hrxc' with h2 | h2 <;>
          subst h1 <;> subst h2 <;> subst h3 <;> subst h4 <;>
            simp only [Nat.mul_zero, Nat.mul_one] at hfst hsnd <;> omega
    obtain ⟨hbx, hby⟩ := hbits
    have hteq : t = t' := by omega
    subst hteq
    subst hbx
    subst hby
    have hroteq : hilbert_rot s x y rx1 ry1 = hilbert_rot s x' y' rx1 ry1 := by
      rw [Prod.ext_iff]
      constructor <;> omega
    obtain ⟨hxx, hyy⟩ := hilbert_rot_inj s x y x' y' rx1 ry1 hx hy hx' hy' hroteq
    exact ⟨rfl, hxx, hyy⟩

theorem hilbert_loop_eq_iter :
    ∀ (k s t x y : Nat), 0 < s →
      hilbert_loop (s * 2 ^ k) s t x y = hilbert_iter k s t (x, y) := by
  intro k
  induction k with
  | zero =>
    intro s t x y hs
    rw [hilbert_loop]
    rw [dif_neg (by simp)]
    rfl
  | succ k ih =>
    intro s t x y hs
    rw [hilbert_loop]
    have h2 : 2 ≤ 2 ^ (k + 1) := Nat.one_lt_two_pow (by omega)
    have hlt : s < s * 2 ^ (k + 1) := by
      have hmul : s * 2 ≤ s * 2 ^ (k + 1) := Nat.mul_le_mul_left s h2
      omega
    rw [dif_pos ⟨hs, hlt⟩]
    have hs2 : s * 2 ^ (k + 1) = (s * 2) * 2 ^ k := by ring
    rw [hilbert_iter_succ, hs2]
    exact ih (s * 2) (t / 4) _ _ (by omega)

theorem hilbert_d2xy_eq_iter (k d : Nat) :
    hilbert_d2xy (2 ^ k) d = hilbert_iter k 1 d (0, 0) := by
  unfold hilbert_d2xy
  have h := hilbert_loop_eq_iter k 1 d 0 0 (by omega)
  simpa using h

/-- `List.count` over coordinate pairs does not depend on which lawful
boolean-equality instance is used. -/
theorem count_instance_eq (l : List (Nat × Nat)) (a : Nat × Nat) :
    l.count a = @List.count _ instBEqOfDecidableEq a l := by
  induction l with
  | nil => rfl
  | cons b l ih =>
    by_cases h : b = a
    · simp [List.count_cons, ih, h, instBEqOfDecidableEq]
    · simp [List.count_cons, ih, h, instBEqOfDecidableEq]

/-- Each grid coordinate appears exactly once in the Hilbert lookup table of
a power-of-two side. -/
theorem hilbertTable_count (k x y : Nat) (hx : x < 2 ^ k) (hy : y < 2 ^ k) :
    (hilbertTable (2 ^ k)).count (x, y) = 1 := by
  have hN : 2 ^ k * 2 ^ k = 4 ^ k := by
    rw [show (4 : ℕ) = 2 * 2 from rfl, Nat.mul_pow]
  have hinj : ∀ d1 ∈ List.range (2 ^ k * 2 ^ k), ∀ d2 ∈ List.range (2 ^ k * 2 ^ k),
      hilbert_d2xy (2 ^ k) d1 = hilbert_d2xy (2 ^ k) d2 → d1 = d2 := by
    intro d1 h1 d2 h2 heq
    rw [List.mem_range] at h1 h2
    rw [hilbert_d2xy_eq_iter, hilbert_d2xy_eq_iter] at heq
    exact (hilbert_iter_inj k 1 (by omega) d1 d2 0 0 0 0
      (by omega) (by omega) (by omega) (by omega) (by omega) (by omega) heq).1
  have hnodup : ((List.range (2 ^ k * 2 ^ k)).map (hilbert_d2xy (2 ^ k))).Nodup :=
    (List.nodup_range _).map_on hinj
  have hrange : ∀ d, (hilbert_d2xy (2 ^ k) d).1 < 2 ^ k ∧
      (hilbert_d2xy (2 ^ k) d).2 < 2 ^ k := by
    intro d
    rw [hilbert_d2xy_eq_iter]
    have h := hilbert_iter_range k 1 d 0 0 (by omega) (by omega) (by omega)
    simpa using h
  have himg : (Finset.range (2 ^ k * 2 ^ k)).image (hilbert_d2xy (2 ^ k))
      ⊆ (Finset.range (2 ^ k)) ×ˢ (Finset.range (2 ^ k)) := by
    intro p hp
    obtain ⟨d, _, rfl⟩ := Finset.mem_image.mp hp
    rw [Finset.mem_product, Finset.mem_range, Finset.mem_range]
    exact hrange d
  have hcard_img : ((Finset.range (2 ^ k * 2 ^ k)).image (hilbert_d2xy (2 ^ k))).card
      = 2 ^ k * 2 ^ k := by
    rw [Finset.card_image_of_injOn, Finset.card_range]
    intro d1 h1 d2 h2 heq
    rw [Finset.mem_coe, Finset.mem_range] at h1 h2
    exact hinj d1 (List.mem_range.mpr h1) d2 (List.mem_range.mpr h2) heq
  have hgridcard : ((Finset.range (2 ^ k)) ×ˢ (Finset.range (2 ^ k))).card
      = 2 ^ k * 2 ^ k := by simp
  have hsets : (Finset.range (2 ^ k * 2 ^ k)).image (hilbert_d2xy (2 ^ k))
      = (Finset.range (2 ^ k)) ×ˢ (Finset.range (2 ^ k)) :=
    Finset.eq_of_subset_of_card_le himg (by rw [hcard_img, hgridcard])
  have hmemF : (x, y) ∈ (Finset.range (2 ^ k * 2 ^ k)).image (hilbert_d2xy (2 ^ k)) := by
    rw [hsets, Finset.mem_product]
    exact ⟨Finset.mem_range.mpr hx, Finset.mem_range.mpr hy⟩
  obtain ⟨d, hd, hfd⟩ := Finset.mem_image.mp hmemF
  have hmemL : (x, y) ∈ (List.range (2 ^ k * 2 ^ k)).map (hilbert_d2xy (2 ^ k)) :=
    List.mem_map.mpr ⟨d, List.mem_range.mpr (Finset.mem_range.mp hd), hfd⟩
  rw [show hilbertTable (2 ^ k)
      = (List.range (2 ^ k * 2 ^ k)).map (hilbert_d2xy (2 ^ k)) from rfl]
  rw [count_instance_eq]
  exact List.count_eq_one_of_mem hnodup hmemL

/-- C3: for a window side that is a power of two, the lookup table built on
switching to curve mapping is exactly the `side²`-entry Hilbert table, and
that table is a bijection onto the grid: every coordinate pair with both
components below the side appears exactly once. -/
theorem C3_hilbert_map_bijection (k : Nat) (st : SzSt) (x y : Nat)
    (hbase : st.base = 2 ^ k) (hx : x < st.base) (hy : y < st.base) :
    (ch_map_f 8 st .hilbert).cmap = some (hilbertTable st.base) ∧
    (hilbertTable st.base).length = st.base * st.base ∧
    (hilbertTable st.base).count (x, y) = 1 := by
  refine ⟨?_, by simp [hilbertTable], ?_⟩
  · have h := (ch_map_f_8_spec st .hilbert).2.2.2.1
    simpa using h
  · rw [hbase] at hx hy ⊢
    exact hilbertTable_count k x y hx hy

/-- Witness for C3 at side 2 (`k = 1`): after switching a concrete channel
to curve mapping the table is the 4-entry Hilbert table and the coordinate
`(0, 1)` appears exactly once in it. -/
theorem C3_hilbert_map_bijection_witness :
    (ch_map_f 8 ⟨2, .tight, .wrap, 4, 16, none, false⟩ .hilbert).cmap
      = some (hilbertTable 2) ∧
    (hilbertTable 2).length = 4 ∧
    (hilbertTable 2).count (0, 1) = 1 := by
  have h := C3_hilbert_map_bijection 1 ⟨2, .tight, .wrap, 4, 16, none, false⟩ 0 1
    (by norm_num) (by norm_num) (by norm_num)
  simpa using h

end RWStat
